import Mathlib

/-!
Verification of the kana-dojo adaptive practice scheduler and of the
`PickGame` component that drives it.

The `PickGame` component (score handling, the incorrect-option builder and
the guards around selector calls) is embedded directly from its source.
The Weighted Selector (`selectWeightedCharacter`, `markCharacterSeen`,
`updateCharacterWeight`) and the Mode Decision machine (`decideNextMode`,
`recordWrongAnswer`) live in modules whose implementation is not part of
this source tree, so they are modelled from the specification; weights are
represented as rationals and the ambient randomness (the uniform draw, the
mode-switch roll, the option shuffle) is passed in explicitly as a
parameter.
-/

namespace KanaDojo

/-- Keys identifying drillable items. -/
abbrev ItemKey := String

/-! ## Weighted Selector state -/

/-- Modelled from the spec: the process-wide weight map of the Weighted
Selector (`adaptiveSelection`, not under the source tree), represented as an
association list from item keys to sampling weights.  An entry exists exactly
when the item has been seen. -/
abbrev WeightState := List (ItemKey × ℚ)

/-- Look up the weight entry stored for a key, `none` when the item has no
entry yet. -/
def lookupWeight : WeightState → ItemKey → Option ℚ
  | [], _ => none
  | p :: rest, k => if p.1 = k then some p.2 else lookupWeight rest k

/-- Modelled from the spec: the weight used for sampling; an item with no
entry defaults to weight 1.0. -/
def getWeight (w : WeightState) (k : ItemKey) : ℚ :=
  (lookupWeight w k).getD 1

/-- Store a weight for a key: replace the existing entry, or add one. -/
def setWeight : WeightState → ItemKey → ℚ → WeightState
  | [], k, v => [(k, v)]
  | p :: rest, k, v => if p.1 = k then (k, v) :: rest else p :: setWeight rest k v

/-- Modelled from the spec: positive floor below which a correct answer can
no longer push a weight (exact constant left open by the spec). -/
def weightFloor : ℚ := 1/10

/-- Modelled from the spec: cap of 20x the default weight bounding growth
under repeated failure. -/
def weightCap : ℚ := 20

/-- Modelled from the spec: damping factor < 1 applied on a correct answer
(exact constant left open by the spec). -/
def dampingFactor : ℚ := 7/10

/-- Modelled from the spec: boosting factor > 1 applied on an incorrect
answer (exact constant left open by the spec). -/
def boostFactor : ℚ := 13/10

/-- Modelled from the spec: `markCharacterSeen(key)` creates a weight entry
at the default weight 1.0 when none exists, and otherwise is a no-op. -/
def markCharacterSeen (w : WeightState) (k : ItemKey) : WeightState :=
  match lookupWeight w k with
  | some _ => w
  | none => (k, 1) :: w

/-- Modelled from the spec: `updateCharacterWeight(key, wasCorrect)`
multiplies the current weight by a damping factor and floors it on a correct
answer, multiplies it by a boosting factor and caps it on an incorrect
answer. -/
def updateCharacterWeight (w : WeightState) (k : ItemKey) (wasCorrect : Bool) :
    WeightState :=
  let cur := getWeight w k
  setWeight w k
    (if wasCorrect then max (cur * dampingFactor) weightFloor
     else min (cur * boostFactor) weightCap)

/-- Error taxonomy of the scheduler: `emptyPoolError` is the spec's
`EmptyPoolError`, raised when selection is attempted over an empty pool. -/
inductive SelectionError where
  | emptyPoolError
deriving DecidableEq, Repr

/-- Modelled from the spec: the candidate set of a selection — the pool with
`exclude` removed when the pool has at least two elements, the whole pool
otherwise. -/
def eligibleCandidates (pool : List ItemKey) (exclude : Option ItemKey) :
    List ItemKey :=
  if 2 ≤ pool.length then
    match exclude with
    | some e => pool.filter (fun k => k ≠ e)
    | none => pool
  else pool

/-- Total weight of a list of candidates under a weight state. -/
def totalWeight (w : WeightState) (l : List ItemKey) : ℚ :=
  (l.map (getWeight w)).sum

/-- Modelled from the spec: walk the cumulative weight sums and return the
first candidate whose cumulative sum exceeds the draw `r`. -/
def pickByWeight (w : WeightState) : List ItemKey → ℚ → Option ItemKey
  | [], _ => none
  | x :: rest, r =>
      if r < getWeight w x then some x else pickByWeight w rest (r - getWeight w x)

/-- Modelled from the spec: `selectWeightedCharacter(pool, exclude)` with the
uniform draw `r` in `[0, totalWeight)` passed in explicitly.  An empty pool
signals `EmptyPoolError` instead of returning a value. -/
def selectWeightedCharacter (w : WeightState) (pool : List ItemKey)
    (exclude : Option ItemKey) (r : ℚ) : Except SelectionError ItemKey :=
  if pool.isEmpty then .error .emptyPoolError
  else
    match pickByWeight w (eligibleCandidates pool exclude) r with
    | some k => .ok k
    | none => .error .emptyPoolError

/-- Selector operations as observable events: marking an item seen, updating
a weight after an outcome, and sampling (which reads but does not change the
weight map). -/
inductive SelEvent where
  | seen (k : ItemKey)
  | update (k : ItemKey) (wasCorrect : Bool)
  | select
deriving DecidableEq, Repr

/-- One selector operation applied to the weight state. -/
def stepSel (w : WeightState) : SelEvent → WeightState
  | .seen k => markCharacterSeen w k
  | .update k b => updateCharacterWeight w k b
  | .select => w

/-- The weight state reached from the empty initial map by a sequence of
selector operations. -/
def runSel (evs : List SelEvent) : WeightState :=
  evs.foldl stepSel []

/-! ## Basic lemmas about the weight map -/

theorem lookupWeight_setWeight_self (w : WeightState) (k : ItemKey) (v : ℚ) :
    lookupWeight (setWeight w k v) k = some v := by
  induction w with
  | nil => simp [setWeight, lookupWeight]
  | cons p rest ih =>
      by_cases h : p.1 = k
      · simp [setWeight, lookupWeight, h]
      · simp [setWeight, lookupWeight, h, ih]

theorem getWeight_setWeight_self (w : WeightState) (k : ItemKey) (v : ℚ) :
    getWeight (setWeight w k v) k = v := by
  simp [getWeight, lookupWeight_setWeight_self]

theorem lookupWeight_mem (w : WeightState) (k : ItemKey) (v : ℚ)
    (h : lookupWeight w k = some v) : (k, v) ∈ w := by
  induction w with
  | nil => simp [lookupWeight] at h
  | cons p rest ih =>
      by_cases hk : p.1 = k
      · simp only [lookupWeight, if_pos hk] at h
        obtain ⟨rfl⟩ := h
        exact List.mem_cons.mpr (Or.inl (by rw [← hk]))
      · simp only [lookupWeight, if_neg hk] at h
        exact List.mem_cons_of_mem _ (ih h)

theorem mem_setWeight (w : WeightState) (k : ItemKey) (v : ℚ) (p : ItemKey × ℚ)
    (h : p ∈ setWeight w k v) : p = (k, v) ∨ p ∈ w := by
  induction w with
  | nil => simpa [setWeight] using h
  | cons q rest ih =>
      by_cases hk : q.1 = k
      · simp only [setWeight, if_pos hk, List.mem_cons] at h
        rcases h with h | h
        · exact Or.inl h
        · exact Or.inr (List.mem_cons_of_mem _ h)
      · simp only [setWeight, if_neg hk, List.mem_cons] at h
        rcases h with h | h
        · exact Or.inr (h ▸ List.mem_cons_self _ _)
        · rcases ih h with h' | h'
          · exact Or.inl h'
          · exact Or.inr (List.mem_cons_of_mem _ h')

/-- Invariant on weight maps: every stored weight lies between the floor and
the cap. -/
def WInv (w : WeightState) : Prop :=
  ∀ p ∈ w, weightFloor ≤ p.2 ∧ p.2 ≤ weightCap

theorem getWeight_bounds (w : WeightState) (k : ItemKey) (hw : WInv w) :
    weightFloor ≤ getWeight w k ∧ getWeight w k ≤ weightCap := by
  unfold getWeight
  cases h : lookupWeight w k with
  | none =>
      constructor <;> [norm_num [weightFloor]; norm_num [weightCap]]
  | some v =>
      exact hw _ (lookupWeight_mem w k v h)

theorem WInv_markCharacterSeen (w : WeightState) (k : ItemKey) (hw : WInv w) :
    WInv (markCharacterSeen w k) := by
  unfold markCharacterSeen
  cases h : lookupWeight w k with
  | some v => exact hw
  | none =>
      intro p hp
      rcases List.mem_cons.mp hp with rfl | hp
      · constructor <;> [norm_num [weightFloor]; norm_num [weightCap]]
      · exact hw _ hp

theorem WInv_updateCharacterWeight (w : WeightState) (k : ItemKey) (b : Bool)
    (hw : WInv w) : WInv (updateCharacterWeight w k b) := by
  have hcur := getWeight_bounds w k hw
  have hfloor : (0:ℚ) < weightFloor := by norm_num [weightFloor]
  have hcurpos : (0:ℚ) ≤ getWeight w k := le_trans (le_of_lt hfloor) hcur.1
  intro p hp
  rcases mem_setWeight _ _ _ _ hp with rfl | hp
  · cases b with
    | true =>
        refine ⟨le_max_right _ _, max_le ?_ ?_⟩
        · calc getWeight w k * dampingFactor ≤ getWeight w k * 1 := by
                refine mul_le_mul_of_nonneg_left ?_ hcurpos
                norm_num [dampingFactor]
            _ = getWeight w k := mul_one _
            _ ≤ weightCap := hcur.2
        · norm_num [weightFloor, weightCap]
    | false =>
        refine ⟨le_min ?_ ?_, min_le_right _ _⟩
        · calc weightFloor ≤ getWeight w k := hcur.1
            _ = getWeight w k * 1 := (mul_one _).symm
            _ ≤ getWeight w k * boostFactor := by
                refine mul_le_mul_of_nonneg_left ?_ hcurpos
                norm_num [boostFactor]
        · norm_num [weightFloor, weightCap]
  · exact hw _ hp

theorem WInv_stepSel (w : WeightState) (ev : SelEvent) (hw : WInv w) :
    WInv (stepSel w ev) := by
  cases ev with
  | seen k => exact WInv_markCharacterSeen w k hw
  | update k b => exact WInv_updateCharacterWeight w k b hw
  | select => exact hw

theorem WInv_runSel (evs : List SelEvent) : WInv (runSel evs) := by
  have h : ∀ w : WeightState, WInv w → WInv (evs.foldl stepSel w) := by
    induction evs with
    | nil => exact fun w hw => hw
    | cons ev rest ih => exact fun w hw => ih _ (WInv_stepSel w ev hw)
  exact h [] (by intro p hp; simp at hp)

/-! ## Selection lemmas -/

theorem pickByWeight_mem (w : WeightState) (l : List ItemKey) (r : ℚ)
    (h0 : 0 ≤ r) (h1 : r < totalWeight w l) :
    ∃ k, pickByWeight w l r = some k ∧ k ∈ l := by
  induction l generalizing r with
  | nil =>
      simp [totalWeight] at h1
      linarith
  | cons x rest ih =>
      have hsum : totalWeight w (x :: rest) = getWeight w x + totalWeight w rest := by
        simp [totalWeight]
      by_cases hx : r < getWeight w x
      · exact ⟨x, by simp [pickByWeight, hx], List.mem_cons_self _ _⟩
      · have h0' : 0 ≤ r - getWeight w x := by
          have := not_lt.mp hx
          linarith
        have h1' : r - getWeight w x < totalWeight w rest := by
          rw [hsum] at h1
          linarith
        obtain ⟨k, hk, hmem⟩ := ih (r - getWeight w x) h0' h1'
        exact ⟨k, by simp [pickByWeight, hx, hk], List.mem_cons_of_mem _ hmem⟩

theorem eligibleCandidates_subset (pool : List ItemKey) (exclude : Option ItemKey) :
    ∀ k ∈ eligibleCandidates pool exclude, k ∈ pool := by
  intro k hk
  unfold eligibleCandidates at hk
  by_cases h2 : 2 ≤ pool.length
  · rw [if_pos h2] at hk
    cases exclude with
    | none => exact hk
    | some e => exact (List.mem_filter.mp hk).1
  · rwa [if_neg h2] at hk

theorem mem_eligibleCandidates_ne (pool : List ItemKey) (e k : ItemKey)
    (h2 : 2 ≤ pool.length) (hk : k ∈ eligibleCandidates pool (some e)) : k ≠ e := by
  unfold eligibleCandidates at hk
  rw [if_pos h2] at hk
  simpa using (List.mem_filter.mp hk).2

/-! ## Claim theorems for the Weighted Selector -/

/-- C1: for every non-empty pool and exclude key, with the uniform draw in
`[0, totalWeight)`, `selectWeightedCharacter` returns a key that is a member
of the pool, and when the pool has at least two elements and an exclude key
is given, the returned key is never the exclude key. -/
theorem selectWeightedCharacter_mem_pool_and_avoids_exclude
    (w : WeightState) (pool : List ItemKey) (exclude : Option ItemKey) (r : ℚ)
    (hpool : pool ≠ []) (h0 : 0 ≤ r)
    (h1 : r < totalWeight w (eligibleCandidates pool exclude)) :
    ∃ k, selectWeightedCharacter w pool exclude r = Except.ok k ∧ k ∈ pool ∧
      ∀ e, exclude = some e → 2 ≤ pool.length → k ≠ e := by
  obtain ⟨k, hk, hmem⟩ := pickByWeight_mem w _ r h0 h1
  refine ⟨k, ?_, eligibleCandidates_subset pool exclude k hmem, ?_⟩
  · unfold selectWeightedCharacter
    rw [if_neg (by simpa [List.isEmpty_iff] using hpool), hk]
  · intro e he h2
    subst he
    exact mem_eligibleCandidates_ne pool e k h2 hmem

/-- Witness for C1 at a concrete two-element pool with the exclude key in the
pool. -/
theorem selectWeightedCharacter_mem_pool_and_avoids_exclude_witness :
    ∃ k, selectWeightedCharacter [] ["a", "b"] (some "a") 0 = Except.ok k ∧
      k ∈ ["a", "b"] ∧
      ∀ e, (some "a" : Option ItemKey) = some e →
        2 ≤ (["a", "b"] : List ItemKey).length → k ≠ e :=
  selectWeightedCharacter_mem_pool_and_avoids_exclude [] ["a", "b"] (some "a") 0
    (by simp) (le_refl 0)
    (by
      have h : eligibleCandidates ["a", "b"] (some "a") = ["b"] := by decide
      rw [h]
      norm_num [totalWeight, getWeight, lookupWeight])

/-- C2: for a pool containing exactly one element `e`, selection with
`exclude = e` still returns `e` (no error). -/
theorem selectWeightedCharacter_singleton (w : WeightState) (e : ItemKey) (r : ℚ)
    (h0 : 0 ≤ r) (h1 : r < totalWeight w (eligibleCandidates [e] (some e))) :
    selectWeightedCharacter w [e] (some e) r = Except.ok e := by
  have hel : eligibleCandidates [e] (some e) = [e] := by
    simp [eligibleCandidates]
  rw [hel] at h1
  have hr : r < getWeight w e := by simpa [totalWeight] using h1
  unfold selectWeightedCharacter
  rw [if_neg (by simp), hel]
  simp [pickByWeight, hr]

/-- Witness for C2 at the singleton pool `["a"]` with exclude `"a"`. -/
theorem selectWeightedCharacter_singleton_witness :
    selectWeightedCharacter [] ["a"] (some "a") 0 = Except.ok "a" :=
  selectWeightedCharacter_singleton [] "a" 0 (le_refl 0)
    (by
      have h : eligibleCandidates ["a"] (some "a") = ["a"] := by
        simp [eligibleCandidates]
      rw [h]
      norm_num [totalWeight, getWeight, lookupWeight])

/-- C3: selection over an empty pool signals `EmptyPoolError` instead of
returning a value. -/
theorem selectWeightedCharacter_empty (w : WeightState) (exclude : Option ItemKey)
    (r : ℚ) :
    selectWeightedCharacter w [] exclude r =
      Except.error SelectionError.emptyPoolError := rfl

/-- C4: in any reachable weight state, a correct update strictly decreases the
item's weight unless it is already at the floor, and an incorrect update
strictly increases it unless it is already at the cap. -/
theorem updateCharacterWeight_direction (evs : List SelEvent) (k : ItemKey) :
    (getWeight (runSel evs) k ≠ weightFloor →
      getWeight (updateCharacterWeight (runSel evs) k true) k <
        getWeight (runSel evs) k) ∧
    (getWeight (runSel evs) k ≠ weightCap →
      getWeight (runSel evs) k <
        getWeight (updateCharacterWeight (runSel evs) k false) k) := by
  have hb := getWeight_bounds (runSel evs) k (WInv_runSel evs)
  have hpos : 0 < getWeight (runSel evs) k :=
    lt_of_lt_of_le (by norm_num [weightFloor]) hb.1
  constructor
  · intro hne
    have hgt : weightFloor < getWeight (runSel evs) k :=
      lt_of_le_of_ne hb.1 (Ne.symm hne)
    have hupd : getWeight (updateCharacterWeight (runSel evs) k true) k
        = max (getWeight (runSel evs) k * dampingFactor) weightFloor := by
      simp [updateCharacterWeight, getWeight_setWeight_self]
    rw [hupd]
    exact max_lt (mul_lt_of_lt_one_right hpos (by norm_num [dampingFactor])) hgt
  · intro hne
    have hlt : getWeight (runSel evs) k < weightCap := lt_of_le_of_ne hb.2 hne
    have hupd : getWeight (updateCharacterWeight (runSel evs) k false) k
        = min (getWeight (runSel evs) k * boostFactor) weightCap := by
      simp [updateCharacterWeight, getWeight_setWeight_self]
    rw [hupd]
    exact lt_min (lt_mul_of_one_lt_right hpos (by norm_num [boostFactor])) hlt

/-- Witness for C4 at the initial weight state, where the weight of `"a"` is
the default 1.0, strictly between the floor and the cap. -/
theorem updateCharacterWeight_direction_witness :
    getWeight (updateCharacterWeight (runSel []) "a" true) "a" <
      getWeight (runSel []) "a" ∧
    getWeight (runSel []) "a" <
      getWeight (updateCharacterWeight (runSel []) "a" false) "a" :=
  ⟨(updateCharacterWeight_direction [] "a").1
      (by norm_num [runSel, getWeight, lookupWeight, weightFloor]),
   (updateCharacterWeight_direction [] "a").2
      (by norm_num [runSel, getWeight, lookupWeight, weightCap])⟩

/-- C5: in every state reachable by selector operations, every item's weight
is strictly positive, and an item with no entry has the default weight 1.0. -/
theorem weight_positive_and_default_one (evs : List SelEvent) (k : ItemKey) :
    0 < getWeight (runSel evs) k ∧
    (lookupWeight (runSel evs) k = none → getWeight (runSel evs) k = 1) := by
  constructor
  · exact lt_of_lt_of_le (by norm_num [weightFloor])
      (getWeight_bounds _ k (WInv_runSel evs)).1
  · intro h
    simp [getWeight, h]

/-- Witness for C5 after a run containing each kind of selector event. -/
theorem weight_positive_and_default_one_witness :
    getWeight (runSel [SelEvent.select, SelEvent.seen "b"]) "a" = 1 :=
  (weight_positive_and_default_one [SelEvent.select, SelEvent.seen "b"] "a").2
    (by simp [runSel, stepSel, markCharacterSeen, lookupWeight])

/-- C6: `markCharacterSeen` creates a weight entry at the default weight 1.0
when none exists, is a no-op otherwise, and is idempotent. -/
theorem markCharacterSeen_spec (w : WeightState) (k : ItemKey) :
    markCharacterSeen (markCharacterSeen w k) k = markCharacterSeen w k ∧
    (lookupWeight w k = none → lookupWeight (markCharacterSeen w k) k = some 1) ∧
    (lookupWeight w k ≠ none → markCharacterSeen w k = w) := by
  cases h : lookupWeight w k with
  | some v =>
      have hno : markCharacterSeen w k = w := by
        unfold markCharacterSeen
        rw [h]
      refine ⟨?_, ?_, fun _ => hno⟩
      · rw [hno, hno]
      · intro h'
        exact absurd h' (by simp)
  | none =>
      have h1 : markCharacterSeen w k = (k, 1) :: w := by
        unfold markCharacterSeen
        rw [h]
      have h2 : lookupWeight ((k, 1) :: w) k = some 1 := by
        simp [lookupWeight]
      refine ⟨?_, fun _ => by rw [h1]; exact h2, fun h' => absurd rfl h'⟩
      rw [h1]
      unfold markCharacterSeen
      rw [h2]

/-- Witness for C6 at the empty weight state: marking an unseen key creates
the default entry. -/
theorem markCharacterSeen_spec_witness :
    lookupWeight (markCharacterSeen [] "a") "a" = some 1 :=
  (markCharacterSeen_spec [] "a").2.1 rfl

/-! ## Mode Decision (Smart Reverse Mode) -/

/-- Quiz direction: forward (item → label) or reverse (label → item). -/
inductive QuizMode where
  | forward
  | reverse
deriving DecidableEq, Repr

/-- The other quiz direction. -/
def flipMode : QuizMode → QuizMode
  | .forward => .reverse
  | .reverse => .forward

/-- Modelled from the spec: the per-session state of the Mode Decision
machine (`useSmartReverseMode`, not under the source tree) — the current
mode and the consecutive-correct streak counter. -/
structure SessionModeState where
  mode : QuizMode
  consecutiveCorrect : Int
deriving DecidableEq, Repr

/-- Initial session state: forward mode, zero streak. -/
def initialModeState : SessionModeState :=
  { mode := .forward, consecutiveCorrect := 0 }

/-- Modelled from the spec: streak threshold after which a switch becomes
possible (exact constant left open by the spec). -/
def switchThreshold : Int := 3

/-- Modelled from the spec: `recordWrongAnswer()` resets the
consecutive-correct streak to 0 and deliberately does not change the mode. -/
def recordWrongAnswer (st : SessionModeState) : SessionModeState :=
  { st with consecutiveCorrect := 0 }

/-- Modelled from the spec: `decideNextMode()`, called after a correct
answer, increments the streak and may switch the mode once the streak has
reached the threshold, depending on the randomized roll passed in
explicitly. -/
def decideNextMode (roll : Bool) (st : SessionModeState) : SessionModeState :=
  let streak := st.consecutiveCorrect + 1
  { mode :=
      if switchThreshold ≤ streak then
        if roll then flipMode st.mode else st.mode
      else st.mode,
    consecutiveCorrect := streak }

/-- Observable events of a session: a wrong answer (the UI calls
`recordWrongAnswer`) or a correct answer with its mode-switch roll (the UI
calls `decideNextMode`). -/
inductive ModeEvent where
  | wrongAnswer
  | correctAnswer (roll : Bool)
deriving DecidableEq, Repr

/-- One session event applied to the mode state. -/
def stepMode (st : SessionModeState) : ModeEvent → SessionModeState
  | .wrongAnswer => recordWrongAnswer st
  | .correctAnswer roll => decideNextMode roll st

/-- The session state reached from the initial state by a sequence of
events. -/
def runMode (evs : List ModeEvent) : SessionModeState :=
  evs.foldl stepMode initialModeState

theorem consecutiveCorrect_nonneg_step (st : SessionModeState) (ev : ModeEvent)
    (h : 0 ≤ st.consecutiveCorrect) : 0 ≤ (stepMode st ev).consecutiveCorrect := by
  cases ev with
  | wrongAnswer => simp [stepMode, recordWrongAnswer]
  | correctAnswer roll =>
      simp only [stepMode, decideNextMode]
      omega

/-- C7: `recordWrongAnswer` always resets the streak to 0 and never changes
the mode; any step that changes the mode is a `decideNextMode` step (a
correct answer); and in every reachable session state the streak counter is
non-negative. -/
theorem recordWrongAnswer_frame (st : SessionModeState) (evs : List ModeEvent) :
    (recordWrongAnswer st).consecutiveCorrect = 0 ∧
    (recordWrongAnswer st).mode = st.mode ∧
    (∀ ev, (stepMode st ev).mode ≠ st.mode →
      ∃ roll, ev = ModeEvent.correctAnswer roll) ∧
    0 ≤ (runMode evs).consecutiveCorrect := by
  refine ⟨rfl, rfl, ?_, ?_⟩
  · intro ev hev
    cases ev with
    | wrongAnswer => exact absurd rfl hev
    | correctAnswer roll => exact ⟨roll, rfl⟩
  · have h : ∀ s : SessionModeState, 0 ≤ s.consecutiveCorrect →
        0 ≤ (evs.foldl stepMode s).consecutiveCorrect := by
      induction evs with
      | nil => exact fun s hs => hs
      | cons ev rest ih =>
          exact fun s hs => ih _ (consecutiveCorrect_nonneg_step s ev hs)
    exact h initialModeState (le_refl 0)

/-- Witness for C7 at a concrete state and event sequence, including a
mode-changing step that is necessarily a correct-answer step. -/
theorem recordWrongAnswer_frame_witness :
    ∃ roll,
      ModeEvent.correctAnswer true = ModeEvent.correctAnswer roll :=
  (recordWrongAnswer_frame
      { mode := .forward, consecutiveCorrect := 5 }
      [ModeEvent.correctAnswer true, ModeEvent.wrongAnswer]).2.2.1
    (ModeEvent.correctAnswer true) (by decide)

/-! ## PickGame component (embedded from the source)

The definitions below are translated from the `PickGame` component: the
kana/romaji pair maps built with `Object.fromEntries`, the incorrect-option
builder `getIncorrectOptions`, the guards around the calls to
`selectWeightedCharacter`, and the score updates of `handleCorrectAnswer`
and `handleWrongAnswer`.  The random shuffle (`sort` with a random
comparator) is passed in as an explicit function.
-/

/-- Semantics of JavaScript `Object.fromEntries` on a list of entries: each
key keeps the position of its first occurrence and the value of its last
occurrence. -/
def fromEntries (l : List (String × String)) : List (String × String) :=
  l.foldl
    (fun acc kv =>
      if acc.any (fun p => p.1 == kv.1) then
        acc.map (fun p => if p.1 == kv.1 then kv else p)
      else acc ++ [kv])
    []

/-- Property lookup `pairs[k]` on an object represented as an entry list. -/
def lookupValue (pairs : List (String × String)) (k : String) : Option String :=
  (pairs.find? (fun p => p.1 == k)).map Prod.snd

/-- The rest-object of the destructuring `const { [k]: _, ...rest } = pairs`:
all entries except the one keyed `k`, in order. -/
def omitKey (pairs : List (String × String)) (k : String) : List (String × String) :=
  pairs.filter (fun p => p.1 != k)

/-- `Object.values` of an object represented as an entry list. -/
def valuesOf (pairs : List (String × String)) : List String :=
  pairs.map Prod.snd

/-- Embedded from `PickGame`: `selectedPairs`, the kana → romaji map for
normal pick mode, built with `Object.fromEntries` over the zipped selected
lists. -/
def selectedPairsF (selectedKana selectedRomaji : List String) :
    List (String × String) :=
  fromEntries (selectedKana.zip selectedRomaji)

/-- Embedded from `PickGame`: `selectedPairs1`, the romaji → kana map for
reverse pick mode. -/
def selectedPairs1 (selectedRomaji selectedKana : List String) :
    List (String × String) :=
  fromEntries (selectedRomaji.zip selectedKana)

/-- Embedded from `PickGame`: `selectedPairs2`, the romaji → kana map built
from the reversed entry list. -/
def selectedPairs2 (selectedRomaji selectedKana : List String) :
    List (String × String) :=
  fromEntries ((selectedRomaji.zip selectedKana).reverse)

/-- Embedded from `PickGame`: `reversedPairs1`, `selectedPairs1` with keys
and values swapped. -/
def reversedPairs1 (selectedRomaji selectedKana : List String) :
    List (String × String) :=
  fromEntries ((selectedPairs1 selectedRomaji selectedKana).map Prod.swap)

/-- Embedded from `PickGame`: `reversedPairs2`, `selectedPairs2` with keys
and values swapped. -/
def reversedPairs2 (selectedRomaji selectedKana : List String) :
    List (String × String) :=
  fromEntries ((selectedPairs2 selectedRomaji selectedKana).map Prod.swap)

/-- Embedded from `PickGame.getIncorrectOptions`: drop the entry of the
correct key, shuffle the remaining values, and keep the first two. -/
def getIncorrectOptionsFrom (shuffle : List String → List String)
    (pairs : List (String × String)) (correctKey : String) : List String :=
  (shuffle (valuesOf (omitKey pairs correctKey))).take 2

/-- The forward-mode branch of `getIncorrectOptions`, operating on
`selectedPairs` with the current `correctKanaChar`. -/
def getIncorrectOptionsForward (shuffle : List String → List String)
    (selectedKana selectedRomaji : List String) (correctKanaChar : String) :
    List String :=
  getIncorrectOptionsFrom shuffle (selectedPairsF selectedKana selectedRomaji)
    correctKanaChar

/-- The reverse-mode branch of `getIncorrectOptions`, operating on
`selectedPairs1` or `selectedPairs2` depending on the coin flip, with the
current `correctRomajiCharReverse`. -/
def getIncorrectOptionsReverse (shuffle : List String → List String)
    (selectedRomaji selectedKana : List String) (coin : Bool)
    (correctRomajiCharReverse : String) : List String :=
  getIncorrectOptionsFrom shuffle
    (if coin then selectedPairs1 selectedRomaji selectedKana
     else selectedPairs2 selectedRomaji selectedKana)
    correctRomajiCharReverse

/-- Embedded from `PickGame`: the `correctKanaChar` state initializer — when
the selected kana list is empty it returns the empty string without calling
the selector (`none`), otherwise the selector is called with the whole list
(`some pool`). -/
def initForwardPool (selectedKana : List String) : Option (List String) :=
  if selectedKana.length = 0 then none else some selectedKana

/-- Embedded from `PickGame`: the `correctRomajiCharReverse` state
initializer, guarded on the selected romaji list. -/
def initReversePool (selectedRomaji : List String) : Option (List String) :=
  if selectedRomaji.length = 0 then none else some selectedRomaji

/-- Embedded from `PickGame`: the component returns `null` before the answer
handlers are reachable whenever the selected kana list is empty. -/
def rendersNull (selectedKana : List String) : Bool :=
  selectedKana.isEmpty

/-- Embedded from `PickGame.handleOptionClick` (reverse branch): the guard
under which the correct-answer path — and with it the selector call on
`selectedRomaji` — runs. -/
def reverseCorrectGuard (selectedRomaji selectedKana : List String)
    (selectedChar correctRomajiCharReverse : String) : Bool :=
  (lookupValue (reversedPairs1 selectedRomaji selectedKana) selectedChar
      == some correctRomajiCharReverse) ||
  (lookupValue (reversedPairs2 selectedRomaji selectedKana) selectedChar
      == some correctRomajiCharReverse)

/-- Embedded from `PickGame.handleWrongAnswer`:
`if (score - 1 < 0) { setScore(0) } else { setScore(score - 1) }`. -/
def handleWrongAnswerScore (score : Int) : Int :=
  if score - 1 < 0 then 0 else score - 1

/-- Embedded from `PickGame.handleCorrectAnswer`: `setScore(score + 1)`. -/
def handleCorrectAnswerScore (score : Int) : Int :=
  score + 1

/-- Outcome of one answered question. -/
inductive AnswerOutcome where
  | correct
  | wrong
deriving DecidableEq, Repr

/-- The score update performed for one outcome. -/
def stepScore (s : Int) : AnswerOutcome → Int
  | .correct => handleCorrectAnswerScore s
  | .wrong => handleWrongAnswerScore s

/-- The score after a sequence of outcomes starting from `s0`. -/
def runScore (outs : List AnswerOutcome) (s0 : Int) : Int :=
  outs.foldl stepScore s0

/-! ## Lemmas about the entry-list operations -/

theorem fromEntries_eq_self (l : List (String × String))
    (h : (l.map Prod.fst).Nodup) : fromEntries l = l := by
  have main : ∀ (l acc : List (String × String)),
      ((acc ++ l).map Prod.fst).Nodup →
      l.foldl
        (fun acc kv =>
          if acc.any (fun p => p.1 == kv.1) then
            acc.map (fun p => if p.1 == kv.1 then kv else p)
          else acc ++ [kv]) acc = acc ++ l := by
    intro l
    induction l with
    | nil =>
        intro acc _
        simp
    | cons kv rest ih =>
        intro acc hacc
        have hacc' := hacc
        rw [List.map_append, List.nodup_append] at hacc'
        have hnotin : kv.1 ∉ acc.map Prod.fst := by
          intro hmem
          exact hacc'.2.2 hmem (by simp)
        have hany : ¬ (acc.any (fun p => p.1 == kv.1) = true) := by
          rw [List.any_eq_true]
          rintro ⟨p, hp, hbeq⟩
          exact hnotin (List.mem_map.mpr ⟨p, hp, by simpa using hbeq⟩)
        rw [List.foldl_cons, if_neg hany]
        have hre : (acc ++ [kv]) ++ rest = acc ++ kv :: rest := by
          rw [List.append_assoc]
          rfl
        have ih' := ih (acc ++ [kv]) (by rw [hre]; exact hacc)
        rw [ih', hre]
  have := main l [] (by simpa using h)
  simpa [fromEntries] using this

theorem lookupValue_some_mem (pairs : List (String × String)) (k v : String)
    (h : lookupValue pairs k = some v) : (k, v) ∈ pairs := by
  unfold lookupValue at h
  cases hf : pairs.find? (fun p => p.1 == k) with
  | none =>
      rw [hf] at h
      simp at h
  | some p =>
      rw [hf] at h
      simp at h
      subst h
      have hmem := List.mem_of_find?_eq_some hf
      have hkey : p.1 = k := by simpa using List.find?_some hf
      have hpe : p = (k, p.2) := by
        rw [← hkey]
      rwa [← hpe]

theorem mem_values_omitKey (pairs : List (String × String)) (k v : String)
    (hvals : (pairs.map Prod.snd).Nodup) (hmem : (k, v) ∈ pairs) :
    v ∉ valuesOf (omitKey pairs k) := by
  intro hv
  obtain ⟨p, hp, hpv⟩ := List.mem_map.mp hv
  have hpf := List.mem_filter.mp hp
  have hpne : p.1 ≠ k := by simpa using hpf.2
  have hpe : p = (k, v) :=
    List.inj_on_of_nodup_map hvals hpf.1 hmem (by simpa using hpv)
  exact hpne (by rw [hpe])

theorem mem_getIncorrectOptionsFrom (shuffle : List String → List String)
    (hs : ∀ l, (shuffle l).Perm l) (pairs : List (String × String))
    (correctKey o : String)
    (h : o ∈ getIncorrectOptionsFrom shuffle pairs correctKey) :
    o ∈ valuesOf (omitKey pairs correctKey) := by
  have h1 : o ∈ shuffle (valuesOf (omitKey pairs correctKey)) :=
    List.take_subset _ _ h
  exact ((hs _).mem_iff).mp h1

/-! ## Claim theorems for PickGame -/

/-- C8 counterexample: when two pool entries carry the same label, the
incorrect options built by dropping only the correct entry's key can contain
the current question's correct answer.  Here the pool maps both `"a"` and
`"b"` to the label `"x"`; with `"a"` as the current correct key the correct
answer `"x"` appears among the incorrect options (identity shuffle, which
the random-comparator sort can produce). -/
theorem getIncorrectOptions_contains_correct_answer_cex :
    lookupValue (selectedPairsF ["a", "b"] ["x", "x"]) "a" = some "x" ∧
    "x" ∈ getIncorrectOptionsForward id ["a", "b"] ["x", "x"] "a" := by
  constructor <;> decide

/-- C8 (amended): the incorrect options are always drawn from the pool
entries other than the current correct one; and provided the selected lists
are duplicate-free (the labeling is injective), the options never include
the current question's correct answer, in forward and in reverse mode
alike. -/
theorem getIncorrectOptions_avoid_correct_answer
    (shuffle : List String → List String)
    (hshuffle : ∀ l, (shuffle l).Perm l)
    (selectedKana selectedRomaji : List String)
    (hlen : selectedKana.length = selectedRomaji.length)
    (hkana : selectedKana.Nodup) (hromaji : selectedRomaji.Nodup)
    (coin coin2 : Bool) (correctKana correctRomaji ansF ansR : String) :
    (∀ o ∈ getIncorrectOptionsForward shuffle selectedKana selectedRomaji
        correctKana,
      o ∈ valuesOf (omitKey (selectedPairsF selectedKana selectedRomaji)
        correctKana)) ∧
    (lookupValue (selectedPairsF selectedKana selectedRomaji) correctKana
        = some ansF →
      ansF ∉ getIncorrectOptionsForward shuffle selectedKana selectedRomaji
        correctKana) ∧
    (lookupValue (if coin2 then selectedPairs1 selectedRomaji selectedKana
        else selectedPairs2 selectedRomaji selectedKana) correctRomaji
        = some ansR →
      ansR ∉ getIncorrectOptionsReverse shuffle selectedRomaji selectedKana
        coin correctRomaji) := by
  have hlen1 : selectedRomaji.length ≤ selectedKana.length := le_of_eq hlen.symm
  have hlen2 : selectedKana.length ≤ selectedRomaji.length := le_of_eq hlen
  have hzf : selectedPairsF selectedKana selectedRomaji
      = selectedKana.zip selectedRomaji := by
    unfold selectedPairsF
    exact fromEntries_eq_self _
      (by rw [List.map_fst_zip _ _ hlen2]; exact hkana)
  have hvf : ((selectedKana.zip selectedRomaji).map Prod.snd).Nodup := by
    rw [List.map_snd_zip _ _ hlen1]
    exact hromaji
  have hz1 : selectedPairs1 selectedRomaji selectedKana
      = selectedRomaji.zip selectedKana := by
    unfold selectedPairs1
    exact fromEntries_eq_self _
      (by rw [List.map_fst_zip _ _ hlen1]; exact hromaji)
  have hz2 : selectedPairs2 selectedRomaji selectedKana
      = (selectedRomaji.zip selectedKana).reverse := by
    unfold selectedPairs2
    refine fromEntries_eq_self _ ?_
    rw [List.map_reverse, List.map_fst_zip _ _ hlen1]
    exact List.nodup_reverse.mpr hromaji
  have hv1 : ((selectedRomaji.zip selectedKana).map Prod.snd).Nodup := by
    rw [List.map_snd_zip _ _ hlen2]
    exact hkana
  have hv2 : (((selectedRomaji.zip selectedKana).reverse).map Prod.snd).Nodup := by
    rw [List.map_reverse]
    exact List.nodup_reverse.mpr hv1
  refine ⟨?_, ?_, ?_⟩
  · intro o ho
    exact mem_getIncorrectOptionsFrom shuffle hshuffle _ _ _ ho
  · intro h hin
    have hmem : (correctKana, ansF) ∈ selectedKana.zip selectedRomaji := by
      have := lookupValue_some_mem _ _ _ h
      rwa [hzf] at this
    have hval := mem_getIncorrectOptionsFrom shuffle hshuffle _ _ _ hin
    rw [hzf] at hval
    exact mem_values_omitKey _ _ _ hvf hmem hval
  · intro h hin
    have hmemz : (correctRomaji, ansR) ∈ selectedRomaji.zip selectedKana := by
      cases coin2 with
      | true =>
          have hm := lookupValue_some_mem _ _ _ (by simpa using h)
          rwa [hz1] at hm
      | false =>
          have hm := lookupValue_some_mem _ _ _ (by simpa using h)
          rw [hz2] at hm
          exact List.mem_reverse.mp hm
    have hval := mem_getIncorrectOptionsFrom shuffle hshuffle _ _ _
      (by simpa [getIncorrectOptionsReverse] using hin)
    cases coin with
    | true =>
        rw [if_pos rfl, hz1] at hval
        exact mem_values_omitKey _ _ _ hv1 hmemz hval
    | false =>
        rw [if_neg (by simp), hz2] at hval
        exact mem_values_omitKey _ _ _ hv2 (List.mem_reverse.mpr hmemz) hval

/-- Witness for the amended C8 at an injectively labelled pool: the correct
answer `"x"` of key `"a"` never shows up among the incorrect options. -/
theorem getIncorrectOptions_avoid_correct_answer_witness :
    "x" ∉ getIncorrectOptionsForward id ["a", "b"] ["x", "y"] "a" :=
  (getIncorrectOptions_avoid_correct_answer id (fun l => List.Perm.refl l)
      ["a", "b"] ["x", "y"] rfl (by decide) (by decide)
      true false "a" "x" "x" "y").2.1 (by decide)

/-- C9: `PickGame` never calls `selectWeightedCharacter` on an empty pool —
the state initializers return the empty string without calling the selector
when the selected list is empty and otherwise pass the whole (non-empty)
list; the component renders `null` (so the answer handlers cannot run)
whenever the kana list is empty; and the reverse correct-answer branch,
whose selector call uses the romaji pool, can only fire when that pool is
non-empty. -/
theorem pickGame_selector_pools_nonempty
    (selectedKana selectedRomaji : List String) (c r0 : String) :
    (selectedKana = [] → initForwardPool selectedKana = none) ∧
    (∀ p, initForwardPool selectedKana = some p → p ≠ []) ∧
    (∀ p, initReversePool selectedRomaji = some p → p ≠ []) ∧
    (rendersNull selectedKana = false → selectedKana ≠ []) ∧
    (reverseCorrectGuard selectedRomaji selectedKana c r0 = true →
      selectedRomaji ≠ []) := by
  refine ⟨?_, ?_, ?_, ?_, ?_⟩
  · intro h
    simp [initForwardPool, h]
  · intro p hp
    unfold initForwardPool at hp
    by_cases h : selectedKana.length = 0
    · rw [if_pos h] at hp
      exact absurd hp (by simp)
    · rw [if_neg h] at hp
      injection hp with h2
      subst h2
      intro hc
      exact h (by rw [hc]; rfl)
  · intro p hp
    unfold initReversePool at hp
    by_cases h : selectedRomaji.length = 0
    · rw [if_pos h] at hp
      exact absurd hp (by simp)
    · rw [if_neg h] at hp
      injection hp with h2
      subst h2
      intro hc
      exact h (by rw [hc]; rfl)
  · intro h hc
    subst hc
    simp [rendersNull] at h
  · intro h hc
    subst hc
    simp [reverseCorrectGuard, reversedPairs1, reversedPairs2, selectedPairs1,
      selectedPairs2, fromEntries, lookupValue] at h

/-- Witness for C9: a fired reverse correct-answer guard at a concrete
one-item pool yields a non-empty romaji pool for the selector call. -/
theorem pickGame_selector_pools_nonempty_witness :
    (["x"] : List String) ≠ [] :=
  (pickGame_selector_pools_nonempty ["a"] ["x"] "a" "x").2.2.2.2 (by decide)

/-- C10: `handleWrongAnswer` clamps the decrement at 0 — it sets the score
to 0 exactly when decrementing would go below 0 and decrements by 1
otherwise — so from any non-negative starting score the score stays ≥ 0
after any sequence of correct and wrong answers. -/
theorem score_never_negative (s s0 : Int) (outs : List AnswerOutcome)
    (h0 : 0 ≤ s0) :
    (s - 1 < 0 → handleWrongAnswerScore s = 0) ∧
    (¬ s - 1 < 0 → handleWrongAnswerScore s = s - 1) ∧
    0 ≤ runScore outs s0 := by
  refine ⟨?_, ?_, ?_⟩
  · intro h
    simp [handleWrongAnswerScore, h]
  · intro h
    simp [handleWrongAnswerScore, h]
  · have hstep : ∀ (t : Int) (o : AnswerOutcome), 0 ≤ t → 0 ≤ stepScore t o := by
      intro t o ht
      cases o with
      | correct =>
          simp only [stepScore, handleCorrectAnswerScore]
          omega
      | wrong =>
          simp only [stepScore, handleWrongAnswerScore]
          split <;> omega
    have hrun : ∀ (l : List AnswerOutcome) (t : Int),
        0 ≤ t → 0 ≤ l.foldl stepScore t := by
      intro l
      induction l with
      | nil => exact fun t ht => ht
      | cons o rest ih => exact fun t ht => ih _ (hstep t o ht)
    exact hrun outs s0 h0

/-- Witness for C10 at score 0 and a concrete outcome sequence. -/
theorem score_never_negative_witness :
    handleWrongAnswerScore 0 = 0 ∧
    0 ≤ runScore [AnswerOutcome.wrong, AnswerOutcome.correct, AnswerOutcome.wrong] 0 :=
  ⟨(score_never_negative 0 0
      [AnswerOutcome.wrong, AnswerOutcome.correct, AnswerOutcome.wrong]
      (le_refl 0)).1 (by norm_num),
   (score_never_negative 0 0
      [AnswerOutcome.wrong, AnswerOutcome.correct, AnswerOutcome.wrong]
      (le_refl 0)).2.2⟩

end KanaDojo
